import Mathlib

/-!
# Verification of the CODAM99 terminal Tetris engine

Shallow embedding of the core game logic of `src/tetris.py` (the final
variant of the repository): the attack calculator, the incoming-garbage
ledger, the garbage queue, piece spawning, the 7-bag randomizer, the
T-spin classifier, the board operations, the ghost projection, and the
bit-packed state codec.  Randomness (bag shuffles, garbage hole columns)
is modelled by passing the drawn values as explicit parameters.
-/

namespace Codam99

/-! ## Configuration constants (src/tetris.py, CONFIG section) -/

def WIDTH : Nat := 10
def HEIGHT : Nat := 20
def GARBAGE_BUFFER_PIECES : Int := 3

def PIECE_NAMES : List String := ["I", "O", "T", "S", "Z", "J", "L"]

/-- The `TETROMINOES` dict.  Looking up a key outside the seven piece
names raises in Python; here it returns `[]` (never used on such keys). -/
def TETROMINOES (name : String) : List (List Nat) :=
  if name = "I" then [[0,0,0,0], [1,1,1,1], [0,0,0,0], [0,0,0,0]]
  else if name = "O" then [[1,1],[1,1]]
  else if name = "T" then [[0,1,0],[1,1,1],[0,0,0]]
  else if name = "S" then [[0,1,1],[1,1,0],[0,0,0]]
  else if name = "Z" then [[1,1,0],[0,1,1],[0,0,0]]
  else if name = "J" then [[1,0,0],[1,1,1],[0,0,0]]
  else if name = "L" then [[0,0,1],[1,1,1],[0,0,0]]
  else []

/-! ## Attack calculator (`calculate_garbage`, src/tetris.py:914-940) -/

/-- The non-perfect-clear base table of `calculate_garbage`: the value of
`base_garbage` just before the back-to-back bonus is applied.  The Python
dict lookups `{...}.get(lines_cleared, 0)` are modelled with association
lists. -/
def base_garbage_value (lines_cleared : Nat) (spin_type : Option String)
    (is_mini : Bool) : Nat :=
  if spin_type = some "T-SPIN" then
    if is_mini then
      ((([(1, 0), (2, 1), (3, 2)] : List (Nat × Nat)).lookup lines_cleared).getD 0)
    else
      ((([(1, 2), (2, 4), (3, 6)] : List (Nat × Nat)).lookup lines_cleared).getD 0)
  else if (match spin_type with
      | some s => ["S-SPIN", "Z-SPIN", "I-SPIN", "J-SPIN", "L-SPIN"].contains s
      | none => false) then
    if is_mini then
      ((([(1, 0), (2, 1), (3, 2), (4, 4)] : List (Nat × Nat)).lookup lines_cleared).getD 0)
    else
      ((([(1, 2), (2, 4), (3, 6), (4, 8)] : List (Nat × Nat)).lookup lines_cleared).getD 0)
  else
    ((([(1, 0), (2, 1), (3, 2), (4, 4)] : List (Nat × Nat)).lookup lines_cleared).getD 0)

/-- `calculate_garbage(lines_cleared, spin_type, is_mini, back_to_back,
is_perfect_clear)`.  Note the perfect-clear branch returns immediately,
before the back-to-back bonus is applied. -/
def calculate_garbage (lines_cleared : Nat) (spin_type : Option String)
    (is_mini : Bool) (back_to_back : Bool) (is_perfect_clear : Bool) : Nat :=
  if lines_cleared = 0 then 0
  else if is_perfect_clear then
    ((([(1, 10), (2, 10), (3, 10), (4, 10)] : List (Nat × Nat)).lookup lines_cleared).getD 10)
  else
    let base := base_garbage_value lines_cleared spin_type is_mini
    if back_to_back ∧ 0 < base then base + 1 else base

/-- Claim C1, counterexample: for a perfect clear (base 10 > 0) with one
line cleared and `b2b_active = true`, the returned count equals the
`b2b_active = false` count (both are 10); it is not one more, because the
perfect-clear branch of `calculate_garbage` returns before the
back-to-back bonus is added. -/
theorem c1_counterexample :
    ¬ (calculate_garbage 1 none false true true =
        calculate_garbage 1 none false false true + 1) ∧
    calculate_garbage 1 none false true true = 10 ∧
    calculate_garbage 1 none false false true = 10 := by
  decide

/-- Claim C1 (amended): for `cleared_lines` in 1..4 with `b2b_active =
true`, a perfect clear returns exactly the same count as with
`b2b_active = false` (the bonus never applies to perfect clears), while
for a non-perfect clear whose base is greater than 0 the returned count
is exactly one more than the count with `b2b_active = false`. -/
theorem c1_b2b_bonus (lines : Nat) (spin : Option String) (mini : Bool)
    (h1 : 1 ≤ lines) (h2 : lines ≤ 4) :
    calculate_garbage lines spin mini true true =
      calculate_garbage lines spin mini false true ∧
    (0 < calculate_garbage lines spin mini false false →
      calculate_garbage lines spin mini true false =
        calculate_garbage lines spin mini false false + 1) := by
  have hne : ¬ lines = 0 := by omega
  constructor
  · simp [calculate_garbage, hne]
  · intro hpos
    have hbase : 0 < base_garbage_value lines spin mini := by
      by_contra hle
      simp [calculate_garbage, hne] at hpos
      simp [hpos] at hle
    simp [calculate_garbage, hne, hbase]

/-- Witness for `c1_b2b_bonus` at the concrete input `lines = 2`,
`spin = none`, `mini = false` (a plain double, base 1). -/
theorem c1_b2b_bonus_witness :
    calculate_garbage 2 none false true true =
      calculate_garbage 2 none false false true ∧
    calculate_garbage 2 none false true false =
      calculate_garbage 2 none false false false + 1 := by
  have h := c1_b2b_bonus 2 none false (by decide) (by decide)
  exact ⟨h.1, h.2 (by decide)⟩

/-! ## Incoming-garbage ledger (`process_incoming_garbage`, src/tetris.py:438-459) -/

/-- The fields of a decoded remote state that `process_incoming_garbage`
reads: `state.get('is_dead', False)` and
`state.get('cumulative_garbage', 0)`. -/
structure RemoteState where
  is_dead : Bool
  cumulative_garbage : Nat
  deriving DecidableEq

/-- Python dict assignment `d[p] = v` on the ledger, modelled on an
association list: replace the binding of `p` if present, else append. -/
def ledgerSet (led : List (String × Nat)) (p : String) (v : Nat) :
    List (String × Nat) :=
  match led with
  | [] => [(p, v)]
  | (q, w) :: rest =>
      if q = p then (p, v) :: rest else (q, w) :: ledgerSet rest p v

/-- `process_incoming_garbage(remote_states)`: for every alive peer whose
cumulative counter exceeds the remembered ledger value
(`_received_garbage_from.get(player, 0)`), append the delta to the
returned garbage list and update the ledger.  The global ledger is passed
and returned explicitly. -/
def process_incoming_garbage (remote_states : List (String × RemoteState))
    (received : List (String × Nat)) :
    List (Nat × String) × List (String × Nat) :=
  remote_states.foldl
    (fun acc pst =>
      if pst.2.is_dead then acc
      else
        let cumulative := pst.2.cumulative_garbage
        let last := (acc.2.lookup pst.1).getD 0
        if last < cumulative then
          (acc.1 ++ [(cumulative - last, pst.1)], ledgerSet acc.2 pst.1 cumulative)
        else acc)
    ([], received)

/-- One poll of the single alive peer `"p"`: run
`process_incoming_garbage` on the scanned counter value `c`, add the
credited amounts attributed to `"p"` to the running total, and keep the
updated ledger. -/
def scanStep (acc : Nat × List (String × Nat)) (c : Nat) :
    Nat × List (String × Nat) :=
  let out := process_incoming_garbage [("p", ⟨false, c⟩)] acc.2
  (acc.1 + (((out.1.filter (fun g => g.2 = "p")).map (fun g => g.1)).sum), out.2)

/-- A whole polling history of a single observer watching the single
alive peer `"p"`: each scanned counter value becomes one call to
`process_incoming_garbage`; the credited amounts attributed to `"p"` are
summed across the calls and the ledger is threaded through. -/
def scanSequence (counters : List Nat) (led : List (String × Nat)) :
    Nat × List (String × Nat) :=
  counters.foldl scanStep (0, led)

/-- One scan of the single peer `"p"` against a singleton ledger reduces
to the scalar step: credit `c - a` when `a < c` and remember `max a c`. -/
theorem process_incoming_single (a c : Nat) :
    process_incoming_garbage [("p", ⟨false, c⟩)] [("p", a)] =
      ((if a < c then [(c - a, "p")] else []), [("p", max a c)]) := by
  by_cases h : a < c
  · simp [process_incoming_garbage, ledgerSet, List.lookup, h, Nat.max_eq_right (le_of_lt h)]
  · simp [process_incoming_garbage, ledgerSet, List.lookup, h, Nat.max_eq_left (Nat.le_of_not_lt h)]

/-- `scanStep` on a singleton ledger is the scalar step: credit `c - a`
when `a < c` and remember `max a c`. -/
theorem scanStep_single (t a c : Nat) :
    scanStep (t, [("p", a)]) c = (t + (if a < c then c - a else 0), [("p", max a c)]) := by
  rw [scanStep, process_incoming_single]
  by_cases h : a < c <;> simp [h]

/-- Folding `scanStep` distributes over the running total. -/
theorem scanStep_foldl_shift (l : List Nat) (t0 : Nat) (led : List (String × Nat)) :
    l.foldl scanStep (t0, led) =
      (t0 + (l.foldl scanStep (0, led)).1, (l.foldl scanStep (0, led)).2) := by
  induction l generalizing t0 led with
  | nil => simp
  | cons d t iht =>
    simp only [List.foldl_cons, scanStep]
    rw [iht, iht (0 + _)]
    simp [Nat.add_assoc]

/-- The initial accumulator is a lower bound of a `max`-fold. -/
theorem le_foldl_max (l : List Nat) (b : Nat) : b ≤ l.foldl max b := by
  induction l generalizing b with
  | nil => simp
  | cons d t iht => exact le_trans (Nat.le_max_left b d) (iht (max b d))

/-- Telescoping: the total credited over a polling history starting from
ledger value `a` is the running maximum minus `a`. -/
theorem scanSequence_eq_foldl_max (counters : List Nat) (a : Nat) :
    scanSequence counters [("p", a)] =
      (counters.foldl max a - a, [("p", counters.foldl max a)]) := by
  induction counters generalizing a with
  | nil => simp [scanSequence]
  | cons c rest ih =>
    simp only [scanSequence, List.foldl_cons] at ih ⊢
    rw [scanStep_single, scanStep_foldl_shift, ih (max a c)]
    have hle : max a c ≤ rest.foldl max (max a c) := le_foldl_max rest (max a c)
    rcases Nat.lt_or_ge a c with h | h
    · have hac : max a c = c := Nat.max_eq_right (le_of_lt h)
      rw [hac] at hle ⊢
      simp only [if_pos h, Prod.mk.injEq]
      exact ⟨by omega, trivial⟩
    · have hac : max a c = a := Nat.max_eq_left h
      rw [hac] at hle ⊢
      have hnl : ¬ (a < c) := by omega
      simp only [if_neg hnl, Prod.mk.injEq]
      exact ⟨by omega, trivial⟩

/-- In a `≤`-sorted nonempty list the head is at most the last element. -/
theorem chain'_head_le_getLast (t : List Nat) :
    ∀ (d B : Nat), List.Chain' (· ≤ ·) (d :: t) →
      (d :: t).getLast? = some B → d ≤ B := by
  induction t with
  | nil =>
    intro d B _ hl
    simp at hl
    omega
  | cons e t2 iht =>
    intro d B hch hl
    have h3 : d ≤ e := (List.chain'_cons.mp hch).1
    have h4 : List.Chain' (· ≤ ·) (e :: t2) := (List.chain'_cons.mp hch).2
    have h5 : (e :: t2).getLast? = some B := by
      rwa [List.getLast?_cons_cons] at hl
    exact le_trans h3 (iht e B h4 h5)

/-- A sorted list ending in `B` folds with `max` to `max a B`. -/
theorem foldl_max_sorted (counters : List Nat) (a B : Nat)
    (hch : List.Chain' (· ≤ ·) counters) (hlast : counters.getLast? = some B) :
    counters.foldl max a = max a B := by
  induction counters generalizing a with
  | nil => simp at hlast
  | cons c rest ih =>
    cases rest with
    | nil =>
      simp at hlast
      subst hlast
      simp
    | cons d t =>
      have h1 : c ≤ d := (List.chain'_cons.mp hch).1
      have h2 : List.Chain' (· ≤ ·) (d :: t) := (List.chain'_cons.mp hch).2
      have hlast2 : (d :: t).getLast? = some B := by
        rwa [List.getLast?_cons_cons] at hlast
      have hdB : d ≤ B := chain'_head_le_getLast t d B h2 hlast2
      have := ih h2 hlast2 (a := max a c)
      rw [List.foldl_cons, this]
      have hcB : c ≤ B := le_trans h1 hdB
      omega

/-- Claim C2: a single observer whose ledger holds `A` for the alive peer
`"p"`, after processing any finite, non-decreasing sequence of scanned
counter values ending at `B` with `A < B`, has credited exactly `B - A`
garbage lines to `"p"` in total, regardless of which intermediate values
were observed or skipped. -/
theorem c2_garbage_exactly_once (counters : List Nat) (A B : Nat)
    (hch : List.Chain' (· ≤ ·) counters) (hlast : counters.getLast? = some B)
    (hAB : A < B) :
    (scanSequence counters [("p", A)]).1 = B - A := by
  rw [scanSequence_eq_foldl_max, foldl_max_sorted counters A B hch hlast]
  omega

/-- Witness for `c2_garbage_exactly_once`: polling the counter history
`[3, 3, 7, 12]` from ledger value 2 credits exactly 10 lines. -/
theorem c2_garbage_exactly_once_witness :
    (scanSequence [3, 3, 7, 12] [("p", 2)]).1 = 12 - 2 :=
  c2_garbage_exactly_once [3, 3, 7, 12] 2 12
    (by simp [List.chain'_cons]) (by simp) (by omega)

/-- Claim C7, counterexample: when the scanned counter (3) is smaller
than the remembered ledger value (5), `process_incoming_garbage` credits
nothing but also leaves the ledger at 5 — it does not accept the new,
smaller value as the claim states. -/
theorem c7_counterexample :
    process_incoming_garbage [("p", ⟨false, 3⟩)] [("p", 5)] = ([], [("p", 5)]) ∧
    ¬ (process_incoming_garbage [("p", ⟨false, 3⟩)] [("p", 5)] = ([], [("p", 3)])) := by
  decide

/-- Claim C7 (amended): whenever a scanned alive peer state carries a
cumulative counter strictly smaller than the remembered ledger value for
that peer, processing it credits no garbage lines and leaves the ledger
entirely unchanged (the decreased counter is ignored; nothing is credited
until the counter again exceeds the remembered value). -/
theorem c7_decrease_ignored (p : String) (led : List (String × Nat)) (c : Nat)
    (h : c < (led.lookup p).getD 0) :
    process_incoming_garbage [(p, ⟨false, c⟩)] led = ([], led) := by
  simp only [process_incoming_garbage, List.foldl_cons, List.foldl_nil]
  have hnot : ¬ ((led.lookup p).getD 0 < c) := by omega
  simp [hnot]

/-- Witness for `c7_decrease_ignored` at peer `"q"`, ledger value 5,
scanned counter 3. -/
theorem c7_decrease_ignored_witness :
    process_incoming_garbage [("q", ⟨false, 3⟩)] [("q", 5)] = ([], [("q", 5)]) :=
  c7_decrease_ignored "q" [("q", 5)] 3 (by decide)

/-! ## Garbage queue cancellation (`reduce_garbage_queue`, src/tetris.py:982-995) -/

/-- A garbage queue entry `[amount, buffer_pieces, sender]`
(`queue_garbage`, src/tetris.py:951-958). -/
structure GarbageEntry where
  lines : Nat
  buffer_pieces : Int
  sender : String
  deriving DecidableEq

/-- The `while remaining > 0 and garbage_queue` subtraction loop of
`reduce_garbage_queue`: pop entries whose line count fits in the
remaining amount, shrink the first larger entry. -/
def reduceFront (remaining : Nat) (q : List GarbageEntry) : List GarbageEntry :=
  match q with
  | [] => []
  | e :: rest =>
      if remaining = 0 then e :: rest
      else if e.lines ≤ remaining then reduceFront (remaining - e.lines) rest
      else { e with lines := e.lines - remaining } :: rest

/-- `reduce_garbage_queue(lines_cleared)`: no-op when nothing was cleared
or the queue is empty; otherwise subtract from the front and then add
`lines_cleared` to `buffer_pieces` of every remaining entry. -/
def reduce_garbage_queue (lines_cleared : Nat) (q : List GarbageEntry) :
    List GarbageEntry :=
  if lines_cleared = 0 ∨ q = [] then q
  else (reduceFront lines_cleared q).map
    (fun e => { e with buffer_pieces := e.buffer_pieces + lines_cleared })

/-- Claim C8, stated from the spec's wording: subtract `n` from the front
of the queue — removing whole entries whose line count is at most the
remaining amount and shrinking the first larger entry — until `n` is
exhausted or the queue is empty. -/
def cancelFrontSpec (n : Nat) (q : List GarbageEntry) : List GarbageEntry :=
  match q with
  | [] => []
  | e :: rest =>
      if n = 0 then e :: rest
      else if e.lines ≤ n then cancelFrontSpec (n - e.lines) rest
      else { e with lines := e.lines - n } :: rest

/-- `reduceFront` agrees with the spec's front-subtraction. -/
theorem reduceFront_eq_cancelFrontSpec (q : List GarbageEntry) :
    ∀ n, reduceFront n q = cancelFrontSpec n q := by
  induction q with
  | nil => intro n; simp [reduceFront, cancelFrontSpec]
  | cons e rest ih =>
    intro n
    simp only [reduceFront, cancelFrontSpec, ih]

/-- Claim C8: for every queue and every `cleared_lines = n ≥ 1`,
cancellation subtracts `n` from the front of the queue as the spec
describes and then adds `n` to the `buffer_pieces` of every remaining
entry; in particular a queue `[(3, b1), (2, b2)]` after a 4-line clear
becomes `[(1, b2 + 4)]`. -/
theorem c8_cancellation_front (n : Nat) (q : List GarbageEntry) (h : 1 ≤ n) :
    reduce_garbage_queue n q =
      (cancelFrontSpec n q).map
        (fun e => { e with buffer_pieces := e.buffer_pieces + n }) ∧
    ∀ (b1 b2 : Int) (s1 s2 : String),
      reduce_garbage_queue 4 [⟨3, b1, s1⟩, ⟨2, b2, s2⟩] = [⟨1, b2 + 4, s2⟩] := by
  constructor
  · cases q with
    | nil =>
      simp [reduce_garbage_queue, cancelFrontSpec]
    | cons e rest =>
      have hne : ¬ (n = 0 ∨ e :: rest = []) := by
        push_neg
        exact ⟨by omega, by simp⟩
      rw [reduce_garbage_queue, if_neg hne, reduceFront_eq_cancelFrontSpec]
  · intro b1 b2 s1 s2
    simp only [reduce_garbage_queue, reduceFront]
    norm_num
    simp

/-- Witness for `c8_cancellation_front` at `n = 4` and the queue
`[(3, 7, "a"), (2, -1, "b")]`. -/
theorem c8_cancellation_front_witness :
    reduce_garbage_queue 4 [⟨3, 7, "a"⟩, ⟨2, -1, "b"⟩] =
      (cancelFrontSpec 4 [⟨3, 7, "a"⟩, ⟨2, -1, "b"⟩]).map
        (fun e => { e with buffer_pieces := e.buffer_pieces + (4 : Nat) }) ∧
    reduce_garbage_queue 4 [⟨3, 7, "x"⟩, ⟨2, 5, "y"⟩] = [⟨1, 5 + 4, "y"⟩] := by
  have h := c8_cancellation_front 4 [⟨3, 7, "a"⟩, ⟨2, -1, "b"⟩] (by omega)
  exact ⟨h.1, h.2 7 5 "x" "y"⟩

/-! ## Spawn position (`spawn_new_piece`, src/tetris.py:1396-1425; also
the initial spawn at 1374-1383 and the hold re-spawn at 1511-1513, which
compute the same expression) -/

/-- Width of a piece's shape matrix (`len(shape[0])`). -/
def shapeWidth (name : String) : Nat := ((TETROMINOES name).headD []).length

/-- The spawn abscissa `x = WIDTH // 2 - len(shape[0]) // 2`, used
identically by the initial spawn, `spawn_new_piece` and the hold
re-spawn. -/
def spawn_x (name : String) : Nat := WIDTH / 2 - shapeWidth name / 2

/-- The spawn ordinate: all three spawn sites set `y = -1`. -/
def spawn_y : Int := -1

/-- Claim C3, counterexample: for the T piece (shape width 3) the spawn
abscissa is `10 // 2 - 3 // 2 = 4`, not `(10 - 3) // 2 = 3` as the claim
states. -/
theorem c3_counterexample :
    spawn_x "T" = 4 ∧ (WIDTH - shapeWidth "T") / 2 = 3 ∧
    ¬ spawn_x "T" = (WIDTH - shapeWidth "T") / 2 := by
  decide

/-- Claim C3 (amended): on every spawn of an active piece (initial spawn,
spawn after a lock, and re-spawn after hold) the piece is placed at
`x = WIDTH // 2 - shape_width // 2`, which equals
`(WIDTH - shape_width + 1) / 2` (centering rounded up: 3 for I, 4 for O,
T, S, Z, J, L), and `y = -1`, for every piece name. -/
theorem c3_spawn_position (name : String) (h : name ∈ PIECE_NAMES) :
    spawn_x name = (WIDTH - shapeWidth name + 1) / 2 ∧ spawn_y = -1 := by
  simp only [PIECE_NAMES, List.mem_cons, List.mem_singleton] at h
  rcases h with rfl | rfl | rfl | rfl | rfl | rfl | rfl | h
  · decide
  · decide
  · decide
  · decide
  · decide
  · decide
  · decide
  · simp at h

/-- Witness for `c3_spawn_position` at the S piece. -/
theorem c3_spawn_position_witness :
    spawn_x "S" = (WIDTH - shapeWidth "S" + 1) / 2 ∧ spawn_y = -1 :=
  c3_spawn_position "S" (by decide)

/-! ## 7-bag randomizer (`refill_bag`, src/tetris.py:1352-1357, and the
bag pops in `spawn_new_piece` / the hold handler).  `random.shuffle` is
modelled by passing the successive shuffle outputs as an explicit list of
bags; each bag is required to be a permutation of `PIECE_NAMES`. -/

/-- One draw from the front of the bag, refilling from the next shuffle
output when the bag is empty (`if not piece_bag:
piece_bag.extend(refill_bag())` followed by `piece_bag.pop(0)`). -/
def drawOne (bag : List String) (refills : List (List String)) :
    Option (String × List String × List (List String)) :=
  match bag with
  | p :: rest => some (p, rest, refills)
  | [] =>
      match refills with
      | [] => none
      | r :: rs =>
          match r with
          | [] => none
          | p :: rest => some (p, rest, rs)

/-- The sequence of the first `n` pieces drawn from the bag state
machine. -/
def drawSeq (n : Nat) (bag : List String) (refills : List (List String)) :
    List String :=
  match n with
  | 0 => []
  | n + 1 =>
      match drawOne bag refills with
      | none => []
      | some (p, bag2, refills2) => p :: drawSeq n bag2 refills2

/-- The draw sequence is the concatenation of the current bag and the
refill outputs, as long as the refills are nonempty bags. -/
theorem drawSeq_eq_take (n : Nat) :
    ∀ (bag : List String) (refills : List (List String)),
      (∀ r ∈ refills, r ≠ []) →
      drawSeq n bag refills = (bag ++ refills.join).take n := by
  induction n with
  | zero => intro bag refills _; rfl
  | succ n ih =>
    intro bag refills hne
    cases bag with
    | cons p rest =>
      simp only [drawSeq, drawOne]
      rw [ih rest refills hne]
      simp
    | nil =>
      cases refills with
      | nil => simp [drawSeq, drawOne]
      | cons r rs =>
        cases hr : r with
        | nil => exact absurd hr (hne r (by simp))
        | cons p rest =>
          simp only [drawSeq, drawOne, hr]
          rw [ih rest rs (fun x hx => hne x (by simp [hx]))]
          simp

/-- Claim C4, counterexample: with the two shuffle outputs
`[I,O,T,S,Z,J,L]` and `[L,J,Z,S,T,O,I]` (both permutations of the seven
names), the window of 7 consecutive draws starting at the second draw
contains `L` twice, so not every window of 7 consecutive spawns contains
each piece exactly once. -/
theorem c4_counterexample :
    (["I", "O", "T", "S", "Z", "J", "L"] : List String).Perm PIECE_NAMES ∧
    (["L", "J", "Z", "S", "T", "O", "I"] : List String).Perm PIECE_NAMES ∧
    (((drawSeq 8 ["I", "O", "T", "S", "Z", "J", "L"]
        [["L", "J", "Z", "S", "T", "O", "I"]]).drop 1).take 7).count "L" = 2 := by
  refine ⟨?_, ?_, ?_⟩
  · decide
  · decide
  · decide

/-- Every element of `PIECE_NAMES` occurs exactly once in it. -/
theorem count_pieceNames (name : String) (h : name ∈ PIECE_NAMES) :
    PIECE_NAMES.count name = 1 := by
  simp only [PIECE_NAMES, List.mem_cons, List.mem_singleton] at h
  rcases h with rfl | rfl | rfl | rfl | rfl | rfl | rfl | h
  · decide
  · decide
  · decide
  · decide
  · decide
  · decide
  · decide
  · simp at h

/-- Claim C4 (amended): the exactly-once property holds for the aligned
blocks of 7 draws (draws `7k`..`7k+6`, matching bag boundaries), for any
sequence of shuffle outputs that are permutations of the seven names: the
`k`-th such window of the draw sequence contains every piece name exactly
once.  (Sliding windows that straddle a bag boundary can repeat a name,
as the counterexample shows.) -/
theorem c4_bag_fairness (bags : List (List String)) (k : Nat) (name : String)
    (hall : ∀ b ∈ bags, b.Perm PIECE_NAMES) (hk : k < bags.length)
    (hname : name ∈ PIECE_NAMES) :
    (((drawSeq (7 * bags.length) [] bags).drop (7 * k)).take 7).count name = 1 := by
  have hlen : ∀ b ∈ bags, b.length = 7 := by
    intro b hb
    rw [(hall b hb).length_eq]
    rfl
  have hne : ∀ b ∈ bags, b ≠ [] := by
    intro b hb hnil
    have := hlen b hb
    rw [hnil] at this
    simp at this
  rw [drawSeq_eq_take _ [] bags hne]
  have hjlen : bags.join.length = 7 * bags.length := by
    clear hall hne hk
    induction bags with
    | nil => simp
    | cons b rest ih =>
      simp only [List.join_cons, List.length_append, List.length_cons] at *
      rw [ih (fun x hx => hlen x (by simp [hx]))]
      rw [hlen b (by simp)]
      ring
  rw [List.nil_append, ← hjlen, List.take_length]
  -- reduce the aligned window to the k-th bag
  clear hjlen
  induction bags generalizing k with
  | nil => simp at hk
  | cons b rest ih =>
    cases k with
    | zero =>
      have hb7 : b.length = 7 := hlen b (by simp)
      simp only [Nat.mul_zero, List.drop_zero, List.join_cons]
      rw [List.take_append_of_le_length (by omega), ← hb7, List.take_length]
      rw [List.Perm.count_eq (hall b (by simp))]
      exact count_pieceNames name hname
    | succ k2 =>
      have hb7 : b.length = 7 := hlen b (by simp)
      simp only [List.join_cons]
      rw [show 7 * (k2 + 1) = b.length + 7 * k2 by rw [hb7]; ring]
      rw [List.drop_append]
      exact ih k2 (fun x hx => hall x (by simp [hx])) (by simpa using hk)
        (fun x hx => hlen x (by simp [hx]))
        (fun x hx => hne x (by simp [hx]))

/-- Witness for `c4_bag_fairness`: two concrete shuffle outputs, the
second aligned window, the piece `T`. -/
theorem c4_bag_fairness_witness :
    (((drawSeq (7 * ([["I", "O", "T", "S", "Z", "J", "L"],
        ["L", "J", "Z", "S", "T", "O", "I"]] : List (List String)).length)
        [] [["I", "O", "T", "S", "Z", "J", "L"], ["L", "J", "Z", "S", "T", "O", "I"]]).drop
          (7 * 1)).take 7).count "T" = 1 :=
  c4_bag_fairness [["I", "O", "T", "S", "Z", "J", "L"], ["L", "J", "Z", "S", "T", "O", "I"]]
    1 "T" (by decide) (by decide) (by decide)

/-! ## Board primitives (`collide`, src/tetris.py:737-746) -/

/-- Checked board access `board[ny][nx]`; call sites guard `0 ≤ ny < HEIGHT`
and `0 ≤ nx < WIDTH`, mirroring the Python bounds checks. -/
def boardCell (board : List (List Nat)) (ny nx : Int) : Nat :=
  (board.getD ny.toNat []).getD nx.toNat 0

/-- `shape[r][c]` (shapes are rectangular 0/1 matrices). -/
def shapeCell (shape : List (List Nat)) (r c : Nat) : Nat :=
  (shape.getD r []).getD c 0

/-- `collide(board, shape, x, y)`: a filled shape cell is out of the side
walls, below the bottom, or overlaps an occupied board cell.  Cells above
the board (`ny < 0`) never collide. -/
def collide (board shape : List (List Nat)) (x y : Int) : Bool :=
  (List.range shape.length).any fun r =>
    (List.range (shape.headD []).length).any fun c =>
      if shapeCell shape r c ≠ 0 then
        let nx := x + c
        let ny := y + r
        if nx < 0 ∨ (WIDTH : Int) ≤ nx ∨ (HEIGHT : Int) ≤ ny then true
        else if 0 ≤ ny ∧ boardCell board ny nx ≠ 0 then true
        else false
      else false

/-! ## T-spin classifier (`check_tspin` src/tetris.py:792-818,
`check_spin` src/tetris.py:821-851) -/

/-- The corner test of `check_tspin`: a corner is filled when it lies
beyond a side wall or the bottom wall (`check_x < 0 or check_x >= WIDTH
or check_y >= HEIGHT`), or when it is an in-board occupied cell.  Note
that the wall test fires even for corners above the board. -/
def tspinCornerFilled (board : List (List Nat)) (cx cy dx dy : Int) : Bool :=
  let check_x := cx + dx
  let check_y := cy + dy
  if check_x < 0 ∨ (WIDTH : Int) ≤ check_x ∨ (HEIGHT : Int) ≤ check_y then true
  else if 0 ≤ check_y ∧ boardCell board check_y check_x ≠ 0 then true
  else false

/-- The number of filled corners around the center `(cx, cy)`. -/
def cornersFilledCount (board : List (List Nat)) (cx cy : Int) : Nat :=
  (([(-1, -1), (1, -1), (-1, 1), (1, 1)] : List (Int × Int)).filter
    (fun d => tspinCornerFilled board cx cy d.1 d.2)).length

/-- `get_front_corners_for_t(rotation)` (src/tetris.py:782-789). -/
def get_front_corners_for_t (rotation : Nat) : List (Int × Int) :=
  match rotation % 4 with
  | 0 => [(-1, -1), (1, -1)]
  | 1 => [(1, -1), (1, 1)]
  | 2 => [(-1, 1), (1, 1)]
  | 3 => [(-1, -1), (-1, 1)]
  | _ => [(-1, -1), (1, -1)]

/-- `check_tspin(board, x, y, rotation)`: 3-corner rule around the center
`(x+1, y+1)`, returning `(is_tspin, is_mini)`. -/
def check_tspin (board : List (List Nat)) (x y : Int) (rotation : Nat) :
    Bool × Bool :=
  let cx := x + 1
  let cy := y + 1
  let corners_filled := cornersFilledCount board cx cy
  if corners_filled < 3 then (false, false)
  else
    let front_filled := ((get_front_corners_for_t rotation).filter
      (fun d => tspinCornerFilled board cx cy d.1 d.2)).length
    (true, front_filled < 2)

/-- `check_spin(board, shape, x, y, piece_name, rotation, kick_idx,
rotation_direction)`: T pieces use the 3-corner rule with the kick-4
mini-to-full promotion; the other pieces spin whenever a nonzero kick was
used. -/
def check_spin (board shape : List (List Nat)) (x y : Int)
    (piece_name : String) (rotation kick_idx : Nat)
    (rotation_direction : Option String) : Option String × Bool :=
  if piece_name = "O" then (none, false)
  else if piece_name = "T" then
    let ts := check_tspin board x y rotation
    if ts.1 then (some "T-SPIN", if kick_idx = 4 then false else ts.2)
    else (none, false)
  else if kick_idx = 0 then (none, false)
  else if piece_name = "S" then (some "S-SPIN", true)
  else if piece_name = "Z" then (some "Z-SPIN", true)
  else if piece_name = "I" then (some "I-SPIN", true)
  else if piece_name = "J" then (some "J-SPIN", true)
  else if piece_name = "L" then (some "L-SPIN", true)
  else (none, false)

/-- The corner test exactly as claim C5 words it: corners above the board
never count as filled, the rest are filled when beyond a side or the
bottom wall or occupying a filled board cell. -/
def claimCornerFilled (board : List (List Nat)) (cx cy dx dy : Int) : Bool :=
  let check_x := cx + dx
  let check_y := cy + dy
  if check_y < 0 then false
  else if check_x < 0 ∨ (WIDTH : Int) ≤ check_x ∨ (HEIGHT : Int) ≤ check_y then true
  else decide (boardCell board check_y check_x ≠ 0)

/-- The number of corners that claim C5 counts as filled. -/
def claimCornersFilledCount (board : List (List Nat)) (cx cy : Int) : Nat :=
  (([(-1, -1), (1, -1), (-1, 1), (1, 1)] : List (Int × Int)).filter
    (fun d => claimCornerFilled board cx cy d.1 d.2)).length

/-- A board whose only occupied cell is row 1, column 1. -/
def cornerBoard : List (List Nat) :=
  (List.range HEIGHT).map fun r =>
    (List.range WIDTH).map fun c => if r = 1 ∧ c = 1 then 3 else 0

/-- Claim C5, counterexample: a T piece locked at `x = -1, y = -1` in
rotation 1 after a rotation with kick index 1, on a board whose only
occupied cell is `(row 1, col 1)`.  Under the claim's corner rule
(corners above the board never count) only 2 corners are filled, so the
claim requires "no spin"; but `check_spin` counts the above-board corner
`(-1, -1)` as filled because it is beyond the left wall, finds 3 filled
corners, and returns a mini T-spin. -/
theorem c5_counterexample :
    claimCornersFilledCount cornerBoard (-1 + 1) (-1 + 1) < 3 ∧
    check_spin cornerBoard (TETROMINOES "T") (-1) (-1) "T" 1 1 none =
      (some "T-SPIN", true) := by
  constructor
  · decide
  · decide

/-- The claim's classification rules, restated with the code's corner
test (the amended corner rule): full T-spin when at least 3 corners are
filled and both front corners are filled, mini when at least 3 corners
are filled, not both front corners are filled and the kick index is not
4, full via promotion when the kick index is 4, and no spin with fewer
than 3 filled corners. -/
def tspinClassRules (board : List (List Nat)) (x y : Int)
    (rotation kick_idx : Nat) : Option String × Bool :=
  let cx := x + 1
  let cy := y + 1
  let n := cornersFilledCount board cx cy
  let bothFront := (get_front_corners_for_t rotation).all
    (fun d => tspinCornerFilled board cx cy d.1 d.2)
  if n < 3 then (none, false)
  else if bothFront then (some "T-SPIN", false)
  else if kick_idx = 4 then (some "T-SPIN", false)
  else (some "T-SPIN", true)

/-- The front-corner list always has two entries. -/
theorem get_front_corners_length (rotation : Nat) :
    (get_front_corners_for_t rotation).length = 2 := by
  have h : rotation % 4 < 4 := Nat.mod_lt rotation (by omega)
  have h4 : rotation % 4 = 0 ∨ rotation % 4 = 1 ∨ rotation % 4 = 2 ∨
      rotation % 4 = 3 := by omega
  rcases h4 with h4 | h4 | h4 | h4 <;>
    simp [get_front_corners_for_t, h4]

/-- Claim C5 (amended): for every board, position, rotation and kick
index, `check_spin` on a T piece (invoked only when the last action was a
rotation) classifies exactly by the 3-corner rule of `tspinClassRules`,
whose corner test counts corners beyond the side or bottom walls as
filled even above the board, and counts no other above-board corner. -/
theorem c5_tspin_classifier (board : List (List Nat)) (x y : Int)
    (rotation kick_idx : Nat) (dir : Option String) :
    check_spin board (TETROMINOES "T") x y "T" rotation kick_idx dir =
      tspinClassRules board x y rotation kick_idx := by
  rw [check_spin, if_neg (by decide), if_pos rfl, tspinClassRules, check_tspin]
  by_cases h3 : cornersFilledCount board (x + 1) (y + 1) < 3
  · simp [h3]
  · simp only [if_neg h3]
    have hflen := get_front_corners_length rotation
    set front := get_front_corners_for_t rotation with hfront
    set p := fun d : Int × Int =>
      tspinCornerFilled board (x + 1) (y + 1) d.1 d.2 with hp
    have hmono : (front.filter p).length ≤ front.length :=
      List.length_filter_le p front
    by_cases hb : front.all p
    · have hall : ∀ d ∈ front, p d := by
        intro d hd
        exact (List.all_eq_true.mp hb d hd)
      have heq : (front.filter p).length = front.length := by
        rw [List.filter_length_eq_length]
        intro d hd
        exact (hall d hd)
      have hnot2 : ¬ ((front.filter p).length < 2) := by
        rw [heq, hflen]
        omega
      simp only [if_pos hb, hnot2]
      by_cases hk : kick_idx = 4 <;> simp [hk]
    · have hlt : (front.filter p).length < front.length := by
        rcases Nat.lt_or_ge (front.filter p).length front.length with h | h
        · exact h
        · exfalso
          have heq : (front.filter p).length = front.length := le_antisymm hmono h
          rw [List.filter_length_eq_length] at heq
          exact hb (List.all_eq_true.mpr (fun d hd => heq d hd))
      have h2 : (front.filter p).length < 2 := by omega
      simp only [if_neg hb, h2]
      by_cases hk : kick_idx = 4 <;> simp [hk]

/-! ## Ghost projection (`get_ghost_y`, src/tetris.py:1065-1069) -/

/-- `new_board()`: the empty 10×20 grid. -/
def new_board : List (List Nat) := List.replicate HEIGHT (List.replicate WIDTH 0)

/-- The `while not collide(board, shape, x, ghost_y + 1): ghost_y += 1`
loop of `get_ghost_y`, with an explicit fuel bound; `none` means the fuel
ran out before the loop exited. -/
def get_ghost_y_fuel (fuel : Nat) (board shape : List (List Nat))
    (x y : Int) : Option Int :=
  match fuel with
  | 0 => none
  | fuel + 1 =>
      if collide board shape x (y + 1) then some y
      else get_ghost_y_fuel fuel board shape x (y + 1)

/-- A shape with a filled cell collides at any position at or below the
bottom of the board. -/
theorem collide_of_below (board shape : List (List Nat)) (x y0 : Int)
    (r c : Nat) (hr : r < shape.length) (hc : c < (shape.headD []).length)
    (hcell : shapeCell shape r c ≠ 0) (hy : (HEIGHT : Int) ≤ y0) :
    collide board shape x y0 = true := by
  rw [collide, List.any_eq_true]
  refine ⟨r, List.mem_range.mpr hr, ?_⟩
  rw [List.any_eq_true]
  refine ⟨c, List.mem_range.mpr hc, ?_⟩
  rw [if_pos hcell, if_pos (Or.inr (Or.inr (by omega)))]

/-- If a position does not collide, no filled cell of the shape sits at
or below the bottom of the board there. -/
theorem not_collide_above_bottom (board shape : List (List Nat))
    (x y0 : Int) (r c : Nat) (hr : r < shape.length)
    (hc : c < (shape.headD []).length) (hcell : shapeCell shape r c ≠ 0)
    (h : collide board shape x y0 = false) : y0 + r < (HEIGHT : Int) := by
  by_contra hge
  rw [collide] at h
  rw [List.any_eq_false] at h
  have h1 := h r (List.mem_range.mpr hr)
  rw [Bool.not_eq_true, List.any_eq_false] at h1
  have h2 := h1 c (List.mem_range.mpr hc)
  rw [if_pos hcell, if_pos (Or.inr (Or.inr (by omega)))] at h2
  exact h2 rfl

/-- With enough fuel the ghost loop produces a value. -/
theorem ghost_fuel_isSome (board shape : List (List Nat)) (x : Int)
    (r c : Nat) (hr : r < shape.length) (hc : c < (shape.headD []).length)
    (hcell : shapeCell shape r c ≠ 0) :
    ∀ (fuel : Nat) (y : Int), 1 ≤ fuel → (HEIGHT : Int) ≤ y + fuel →
      (get_ghost_y_fuel fuel board shape x y).isSome := by
  intro fuel
  induction fuel with
  | zero => intro y h1 _; omega
  | succ f ih =>
    intro y _ hbound
    rw [get_ghost_y_fuel]
    by_cases hcol : collide board shape x (y + 1) = true
    · simp [hcol]
    · have hfalse : collide board shape x (y + 1) = false := by
        simpa using hcol
      have hlt := not_collide_above_bottom board shape x (y + 1) r c hr hc hcell hfalse
      rw [if_neg (by simp [hfalse])]
      exact ih (y + 1) (by omega) (by push_cast at hbound ⊢; omega)

/-- Whatever the ghost loop returns satisfies the landing
specification. -/
theorem ghost_fuel_spec (board shape : List (List Nat)) (x : Int) :
    ∀ (fuel : Nat) (y y1 : Int),
      get_ghost_y_fuel fuel board shape x y = some y1 →
      y ≤ y1 ∧
      (∀ k : Int, y < k → k ≤ y1 → collide board shape x k = false) ∧
      collide board shape x (y1 + 1) = true := by
  intro fuel
  induction fuel with
  | zero => intro y y1 h; simp [get_ghost_y_fuel] at h
  | succ f ih =>
    intro y y1 h
    rw [get_ghost_y_fuel] at h
    by_cases hcol : collide board shape x (y + 1) = true
    · rw [if_pos hcol] at h
      have hy : y1 = y := by
        injection h with h2
        omega
      subst hy
      refine ⟨le_refl y1, ?_, hcol⟩
      intro k hk1 hk2
      omega
    · have hfalse : collide board shape x (y + 1) = false := by
        simpa using hcol
      rw [if_neg (by simp [hfalse])] at h
      obtain ⟨ha, hb, hc2⟩ := ih (y + 1) y1 h
      refine ⟨by omega, ?_, hc2⟩
      intro k hk1 hk2
      rcases eq_or_lt_of_le (show y + 1 ≤ k by omega) with heq | hlt
      · rw [← heq]
        exact hfalse
      · exact hb k hlt hk2

/-- Claim C10: for every board, position, and shape containing at least
one filled cell, the ghost-projection loop `get_ghost_y` terminates (the
fuelled loop succeeds with fuel `HEIGHT + 1 - y` and one spare step) and
returns the unique `y1 ≥ y` such that the shape does not collide at any
of `y+1 .. y1` but collides at `y1 + 1`; and the filled-cell
precondition is necessary: with an all-empty shape the collision test is
never true, so the loop would never exit. -/
theorem c10_ghost_projection :
    (∀ (board shape : List (List Nat)) (x y : Int),
      (∃ r c, r < shape.length ∧ c < (shape.headD []).length ∧
        shapeCell shape r c ≠ 0) →
      ∃ y1,
        get_ghost_y_fuel (((HEIGHT : Int) + 1 - y).toNat + 1) board shape x y =
          some y1 ∧
        y ≤ y1 ∧
        (∀ k : Int, y < k → k ≤ y1 → collide board shape x k = false) ∧
        collide board shape x (y1 + 1) = true ∧
        (∀ y2 : Int, y ≤ y2 →
          (∀ k : Int, y < k → k ≤ y2 → collide board shape x k = false) →
          collide board shape x (y2 + 1) = true → y2 = y1)) ∧
    (∀ (board shape : List (List Nat)) (x y : Int),
      (∀ r c, shapeCell shape r c = 0) → collide board shape x y = false) := by
  constructor
  · intro board shape x y hfill
    obtain ⟨r, c, hr, hc, hcell⟩ := hfill
    have hsome := ghost_fuel_isSome board shape x r c hr hc hcell
      (((HEIGHT : Int) + 1 - y).toNat + 1) y (by omega) (by omega)
    obtain ⟨y1, hy1⟩ := Option.isSome_iff_exists.mp hsome
    obtain ⟨ha, hb, hc2⟩ := ghost_fuel_spec board shape x _ y y1 hy1
    refine ⟨y1, hy1, ha, hb, hc2, ?_⟩
    intro y2 h2a h2b h2c
    by_contra hne
    rcases lt_or_gt_of_ne hne with hlt | hgt
    · have := hb (y2 + 1) (by omega) (by omega)
      rw [this] at h2c
      exact Bool.false_ne_true h2c
    · have := h2b (y1 + 1) (by omega) (by omega)
      rw [this] at hc2
      exact Bool.false_ne_true hc2
  · intro board shape x y hempty
    rw [collide, List.any_eq_false]
    intro r _
    rw [Bool.not_eq_true, List.any_eq_false]
    intro c _
    simp [hempty r c]

/-- Witness for `c10_ghost_projection`: the T piece on the empty board at
`x = 3, y = 0`. -/
theorem c10_ghost_projection_witness :
    ∃ y1,
      get_ghost_y_fuel (((HEIGHT : Int) + 1 - 0).toNat + 1) new_board
        (TETROMINOES "T") 3 0 = some y1 ∧
      (0 : Int) ≤ y1 ∧
      (∀ k : Int, 0 < k → k ≤ y1 →
        collide new_board (TETROMINOES "T") 3 k = false) ∧
      collide new_board (TETROMINOES "T") 3 (y1 + 1) = true ∧
      (∀ y2 : Int, 0 ≤ y2 →
        (∀ k : Int, 0 < k → k ≤ y2 →
          collide new_board (TETROMINOES "T") 3 k = false) →
        collide new_board (TETROMINOES "T") 3 (y2 + 1) = true → y2 = y1) :=
  c10_ghost_projection.1 new_board (TETROMINOES "T") 3 0
    ⟨0, 1, by decide, by decide, by decide⟩

/-! ## Board mutation (`lock` src/tetris.py:748-752, `clear_lines`
src/tetris.py:898-903, `add_garbage` src/tetris.py:943-948) -/

/-- `board[ny][nx] = color`.  The sequences of writes we consider are the
non-colliding locks of claim C9, whose indices are always in range, so
plain `List.set` (a no-op out of range) is a faithful model of the Python
item assignment there. -/
def setBoardCell (board : List (List Nat)) (ny nx : Int) (color : Nat) :
    List (List Nat) :=
  board.set ny.toNat ((board.getD ny.toNat []).set nx.toNat color)

/-- `lock(board, shape, x, y, color)`: write `color` into every filled
shape cell whose target row `y + r` is `≥ 0`. -/
def lock (board shape : List (List Nat)) (x y : Int) (color : Nat) :
    List (List Nat) :=
  (List.range shape.length).foldl
    (fun b r =>
      (List.range (shape.headD []).length).foldl
        (fun b2 c =>
          if shapeCell shape r c ≠ 0 ∧ 0 ≤ y + (r : Int) then
            setBoardCell b2 (y + (r : Int)) (x + (c : Int)) color
          else b2)
        b)
    board

/-- `clear_lines(board)`: drop the fully occupied rows and prepend empty
rows to restore the height; also return the number of cleared rows. -/
def clear_lines (board : List (List Nat)) : List (List Nat) × Nat :=
  let kept := board.filter (fun row => !(row.all (fun cell => cell != 0)))
  let cleared := HEIGHT - kept.length
  (List.replicate cleared (List.replicate WIDTH 0) ++ kept, cleared)

/-- One garbage line: garbage color 8 everywhere except the hole
column. -/
def garbage_line (hole : Nat) : List Nat :=
  (List.range WIDTH).map fun i => if i = hole then 0 else 8

/-- `add_garbage(board, n)`: pop the top row and append a garbage line,
once per requested line; the random hole columns are passed explicitly,
one per line. -/
def add_garbage (board : List (List Nat)) (holes : List Nat) :
    List (List Nat) :=
  holes.foldl (fun b hole => b.drop 1 ++ [garbage_line hole]) board

/-- The board operation alphabet of claim C9. -/
inductive BoardOp where
  | lockOp (shape : List (List Nat)) (x y : Int) (color : Nat)
  | clearOp
  | garbageOp (holes : List Nat)

/-- Apply one board operation. -/
def applyOp (board : List (List Nat)) : BoardOp → List (List Nat)
  | .lockOp shape x y color => lock board shape x y color
  | .clearOp => (clear_lines board).1
  | .garbageOp holes => add_garbage board holes

/-- Apply a sequence of board operations. -/
def applyOps (board : List (List Nat)) (ops : List BoardOp) :
    List (List Nat) :=
  ops.foldl applyOp board

/-- Claim C9's side conditions: every lock happens at a non-colliding
position with a color in 1..8 (evaluated against the board state at that
point); clears and garbage injections are unrestricted. -/
def opPrecondition (b : List (List Nat)) : BoardOp → Bool
  | .lockOp shape x y color =>
      !(collide b shape x y) && decide (1 ≤ color) && decide (color ≤ 8)
  | .clearOp => true
  | .garbageOp _ => true

def validOps : List (List Nat) → List BoardOp → Bool
  | _, [] => true
  | b, op :: rest => opPrecondition b op && validOps (applyOp b op) rest

/-- The board shape/occupancy invariant of claim C9: 20 rows of 10 cells,
all values in 0..8. -/
def BoardInv (board : List (List Nat)) : Prop :=
  board.length = HEIGHT ∧
  ∀ row ∈ board, row.length = WIDTH ∧ ∀ cell ∈ row, cell ≤ 8

/-- A single cell write with an in-range color preserves the board
invariant. -/
theorem boardInv_setBoardCell (b : List (List Nat)) (ny nx : Int)
    (color : Nat) (hinv : BoardInv b) (hcolor : color ≤ 8) :
    BoardInv (setBoardCell b ny nx color) := by
  obtain ⟨hlen, hrows⟩ := hinv
  by_cases hin : ny.toNat < b.length
  · refine ⟨by simp [setBoardCell, hlen], ?_⟩
    intro row hrow
    rw [setBoardCell] at hrow
    rcases List.mem_or_eq_of_mem_set hrow with hmem | heq
    · exact hrows row hmem
    · have hold : b.getD ny.toNat [] ∈ b := by
        rw [show b.getD ny.toNat [] = b[ny.toNat] by
          simp [List.getD_eq_getElem?_getD, List.getElem?_eq_getElem hin]]
        exact List.getElem_mem hin
      obtain ⟨hw, hcells⟩ := hrows _ hold
      subst heq
      refine ⟨?_, ?_⟩
      · rw [List.length_set]
        exact hw
      · intro cell hcell
        rcases List.mem_or_eq_of_mem_set hcell with hm | he
        · exact hcells cell hm
        · omega
  · -- an out-of-range row index writes nothing
    rw [setBoardCell, List.set_eq_of_length_le (by omega)]
    exact ⟨hlen, hrows⟩

/-- A fold preserves any invariant its step preserves. -/
theorem foldl_preserves {α β : Type} (P : β → Prop) (f : β → α → β)
    (hf : ∀ b a, P b → P (f b a)) :
    ∀ (l : List α) (b : β), P b → P (l.foldl f b) := by
  intro l
  induction l with
  | nil => intro b hb; exact hb
  | cons a rest ih => intro b hb; exact ih (f b a) (hf b a hb)

/-- Locking preserves the board invariant for colors in 0..8. -/
theorem boardInv_lock (board shape : List (List Nat)) (x y : Int)
    (color : Nat) (hinv : BoardInv board) (hcolor : color ≤ 8) :
    BoardInv (lock board shape x y color) := by
  rw [lock]
  refine foldl_preserves BoardInv _ ?_ _ board hinv
  intro b r hb
  refine foldl_preserves BoardInv _ ?_ _ b hb
  intro b2 c hb2
  by_cases hcond : shapeCell shape r c ≠ 0 ∧ 0 ≤ y + (r : Int)
  · rw [if_pos hcond]
    exact boardInv_setBoardCell b2 _ _ color hb2 hcolor
  · rw [if_neg hcond]
    exact hb2

/-- Clearing full rows preserves the board invariant. -/
theorem boardInv_clear_lines (board : List (List Nat))
    (hinv : BoardInv board) : BoardInv (clear_lines board).1 := by
  obtain ⟨hlen, hrows⟩ := hinv
  have hkle : (board.filter (fun row => !(row.all (fun cell => cell != 0)))).length ≤ HEIGHT := by
    calc (board.filter _).length ≤ board.length := List.length_filter_le _ _
    _ = HEIGHT := hlen
  constructor
  · simp only [clear_lines, List.length_append, List.length_replicate]
    omega
  · intro row hrow
    simp only [clear_lines, List.mem_append] at hrow
    rcases hrow with hrep | hfil
    · rw [List.eq_of_mem_replicate hrep]
      constructor
      · simp
      · intro cell hcell
        rw [List.eq_of_mem_replicate hcell]
        omega
    · exact hrows row (List.mem_of_mem_filter hfil)

/-- Injecting garbage lines preserves the board invariant. -/
theorem boardInv_add_garbage (board : List (List Nat)) (holes : List Nat)
    (hinv : BoardInv board) : BoardInv (add_garbage board holes) := by
  rw [add_garbage]
  refine foldl_preserves BoardInv _ ?_ _ board hinv
  intro b hole hb
  obtain ⟨hlen, hrows⟩ := hb
  constructor
  · simp only [List.length_append, List.length_drop, List.length_cons,
      List.length_nil, hlen]
    decide
  · intro row hrow
    rcases List.mem_append.mp hrow with hmem | hnew
    · exact hrows row (List.drop_subset 1 b hmem)
    · rw [List.mem_singleton.mp hnew]
      constructor
      · simp [garbage_line]
      · intro cell hcell
        simp only [garbage_line, List.mem_map] at hcell
        obtain ⟨i, _, hi⟩ := hcell
        split at hi <;> omega

/-- Claim C9: starting from the empty 10×20 board, after any sequence of
board operations — `lock` applied at a non-colliding position with a
color in 1..8, `clear_lines`, and `add_garbage` of any number of lines —
the board always has exactly 20 rows of exactly 10 cells and every cell
value lies in 0..8. -/
theorem c9_board_invariant (ops : List BoardOp)
    (h : validOps new_board ops = true) : BoardInv (applyOps new_board ops) := by
  have hstart : BoardInv new_board := by
    constructor
    · simp [new_board]
    · intro row hrow
      rw [List.eq_of_mem_replicate hrow]
      constructor
      · simp
      · intro cell hcell
        rw [List.eq_of_mem_replicate hcell]
        omega
  have main : ∀ (l : List BoardOp) (b : List (List Nat)),
      BoardInv b → validOps b l = true → BoardInv (applyOps b l) := by
    intro l
    induction l with
    | nil => intro b hb _; exact hb
    | cons op rest ih =>
      intro b hb hv
      cases op with
      | lockOp shape x y color =>
          rw [validOps, Bool.and_eq_true] at hv
          have hcol : color ≤ 8 := by
            have h1 := hv.1
            simp only [opPrecondition, Bool.and_eq_true, decide_eq_true_eq] at h1
            exact h1.2
          exact ih (applyOp b (.lockOp shape x y color))
            (boardInv_lock b shape x y color hb hcol) hv.2
      | clearOp =>
          rw [validOps, Bool.and_eq_true] at hv
          exact ih (applyOp b .clearOp) (boardInv_clear_lines b hb) hv.2
      | garbageOp holes =>
          rw [validOps, Bool.and_eq_true] at hv
          exact ih (applyOp b (.garbageOp holes))
            (boardInv_add_garbage b holes hb) hv.2
  exact main ops new_board hstart h

/-- Witness for `c9_board_invariant`: lock an O piece at the bottom, add
one garbage line with its hole in column 0, then clear lines. -/
theorem c9_board_invariant_witness :
    BoardInv (applyOps new_board
      [.lockOp (TETROMINOES "O") 4 18 2, .garbageOp [0], .clearOp]) :=
  c9_board_invariant [.lockOp (TETROMINOES "O") 4 18 2, .garbageOp [0], .clearOp]
    (by decide)

/-! ## Bit packing (`encode_game_state` src/tetris.py:195-221,
`decode_game_state` src/tetris.py:224-273) -/

/-- The big-endian bit string of width `w` of a value, as produced by the
Python loops `for i in range(w-1, -1, -1): bits.append((v >> i) & 1)`. -/
def natToBits : Nat → Nat → List Nat
  | 0, _ => []
  | w + 1, v => (v / 2 ^ w) % 2 :: natToBits w (v % 2 ^ w)

/-- Reassemble a big-endian bit string, as the Python decoder's
`val = (val << 1) | bit` loops do. -/
def bitsToNat (bits : List Nat) : Nat :=
  bits.foldl (fun acc b => 2 * acc + b) 0

theorem natToBits_length (w : Nat) : ∀ v, (natToBits w v).length = w := by
  induction w with
  | zero => intro v; rfl
  | succ w ih => intro v; simp [natToBits, ih]

theorem natToBits_le_one (w : Nat) : ∀ v, ∀ b ∈ natToBits w v, b ≤ 1 := by
  induction w with
  | zero => intro v b hb; simp [natToBits] at hb
  | succ w ih =>
    intro v b hb
    simp only [natToBits, List.mem_cons] at hb
    rcases hb with rfl | hb
    · omega
    · exact ih _ b hb

theorem bitsToNat_foldl (bits : List Nat) :
    ∀ a, bits.foldl (fun acc b => 2 * acc + b) a =
      a * 2 ^ bits.length + bitsToNat bits := by
  induction bits with
  | nil => intro a; simp [bitsToNat]
  | cons b rest ih =>
    intro a
    have hb : bitsToNat (b :: rest) = b * 2 ^ rest.length + bitsToNat rest := by
      rw [bitsToNat, List.foldl_cons, ih (2 * 0 + b)]
      ring_nf
    rw [List.foldl_cons, ih (2 * a + b), hb]
    rw [List.length_cons, pow_succ]
    ring

theorem bitsToNat_lt (bits : List Nat) (h : ∀ b ∈ bits, b ≤ 1) :
    bitsToNat bits < 2 ^ bits.length := by
  induction bits with
  | nil => simp [bitsToNat]
  | cons b rest ih =>
    have hb : bitsToNat (b :: rest) = b * 2 ^ rest.length + bitsToNat rest := by
      rw [bitsToNat, List.foldl_cons, bitsToNat_foldl]
      ring_nf
    have hrest := ih (fun x hx => h x (by simp [hx]))
    have hb1 : b ≤ 1 := h b (by simp)
    rw [hb, List.length_cons, pow_succ]
    interval_cases b <;> omega

theorem bitsToNat_natToBits (w : Nat) : ∀ v, bitsToNat (natToBits w v) = v % 2 ^ w := by
  induction w with
  | zero => intro v; simp [natToBits, bitsToNat, Nat.mod_one]
  | succ w ih =>
    intro v
    have hb : bitsToNat (v / 2 ^ w % 2 :: natToBits w (v % 2 ^ w)) =
        (v / 2 ^ w % 2) * 2 ^ (natToBits w (v % 2 ^ w)).length +
          bitsToNat (natToBits w (v % 2 ^ w)) := by
      rw [bitsToNat, List.foldl_cons, bitsToNat_foldl]
      ring_nf
    rw [natToBits, hb, natToBits_length, ih, Nat.mod_mod_of_dvd _ (dvd_refl _)]
    rw [pow_succ, Nat.mod_mul]
    ring

theorem natToBits_bitsToNat (bits : List Nat) (h : ∀ b ∈ bits, b ≤ 1) :
    natToBits bits.length (bitsToNat bits) = bits := by
  induction bits with
  | nil => rfl
  | cons b rest ih =>
    have hb : bitsToNat (b :: rest) = b * 2 ^ rest.length + bitsToNat rest := by
      rw [bitsToNat, List.foldl_cons, bitsToNat_foldl]
      ring_nf
    have hrest : bitsToNat rest < 2 ^ rest.length :=
      bitsToNat_lt rest (fun x hx => h x (by simp [hx]))
    have hb1 : b ≤ 1 := h b (by simp)
    rw [List.length_cons, natToBits, hb]
    have hdiv : (b * 2 ^ rest.length + bitsToNat rest) / 2 ^ rest.length = b := by
      rw [Nat.mul_comm, Nat.mul_add_div (by positivity)]
      rw [Nat.div_eq_of_lt hrest]
      ring
    have hmod : (b * 2 ^ rest.length + bitsToNat rest) % 2 ^ rest.length =
        bitsToNat rest := by
      rw [Nat.mul_comm, Nat.mul_add_mod, Nat.mod_eq_of_lt hrest]
    rw [hdiv, hmod, Nat.mod_eq_of_lt (by omega),
      ih (fun x hx => h x (by simp [hx]))]

/-- `natToBits_bitsToNat` with the width given separately. -/
theorem natToBits_bitsToNat_of_length (w : Nat) (bits : List Nat)
    (hlen : bits.length = w) (h : ∀ b ∈ bits, b ≤ 1) :
    natToBits w (bitsToNat bits) = bits := by
  rw [← hlen]
  exact natToBits_bitsToNat bits h

/-- Pack a bit string into bytes, 8 bits per byte big-endian, padding the
final partial byte with zero bits, as the encoder's
`for i in range(0, len(bits), 8)` loop does. -/
def bitsToBytes (bits : List Nat) : List Nat :=
  if h : bits = [] then []
  else
    bitsToNat (bits.take 8 ++ List.replicate (8 - bits.length) 0) ::
      bitsToBytes (bits.drop 8)
  termination_by bits.length
  decreasing_by
    simp only [List.length_drop]
    have : 0 < bits.length := List.length_pos.mpr h
    omega

/-- Unpack bytes into bits, 8 big-endian bits per byte, as the decoder's
`for j in range(8): bits.append((byte >> (7 - j)) & 1)` loop does. -/
def bytesToBits (bytes : List Nat) : List Nat :=
  (bytes.map (natToBits 8)).join

theorem bytesToBits_nil : bytesToBits [] = [] := rfl

theorem bytesToBits_cons (b : Nat) (rest : List Nat) :
    bytesToBits (b :: rest) = natToBits 8 b ++ bytesToBits rest := by
  simp [bytesToBits]

/-- Packing then unpacking appends the zero padding of the final byte and
changes nothing else. -/
theorem bytesToBits_bitsToBytes (n : Nat) :
    ∀ (bits : List Nat), bits.length ≤ n → (∀ b ∈ bits, b ≤ 1) →
      bytesToBits (bitsToBytes bits) =
        bits ++ List.replicate ((8 - bits.length % 8) % 8) 0 := by
  induction n with
  | zero =>
    intro bits hlen _
    have : bits = [] := List.eq_nil_of_length_eq_zero (by omega)
    subst this
    rw [bitsToBytes]
    simp [bytesToBits]
  | succ n ih =>
    intro bits hlen hbits
    by_cases hbe : bits = []
    · subst hbe
      rw [bitsToBytes]
      simp [bytesToBits]
    · rw [bitsToBytes, dif_neg hbe, bytesToBits_cons]
      have hpos : 0 < bits.length := List.length_pos.mpr hbe
      by_cases h8 : 8 ≤ bits.length
      · have hpad : 8 - bits.length = 0 := by omega
        rw [hpad, List.replicate_zero, List.append_nil]
        have htl : (bits.take 8).length = 8 := by
          rw [List.length_take]
          omega
        have hchunk : natToBits 8 (bitsToNat (bits.take 8)) = bits.take 8 :=
          natToBits_bitsToNat_of_length 8 (bits.take 8) htl
            (fun x hx => hbits x (List.mem_of_mem_take hx))
        rw [hchunk]
        rw [ih (bits.drop 8) (by simp [List.length_drop]; omega)
          (fun x hx => hbits x (List.mem_of_mem_drop hx))]
        rw [← List.append_assoc, List.take_append_drop]
        have : (8 - (bits.drop 8).length % 8) % 8 =
            (8 - bits.length % 8) % 8 := by
          rw [List.length_drop]
          omega
        rw [this]
      · have htake : bits.take 8 = bits := List.take_of_length_le (by omega)
        have hdrop : bits.drop 8 = [] := List.drop_eq_nil_of_le (by omega)
        rw [htake, hdrop]
        rw [show bitsToBytes [] = [] by rw [bitsToBytes]; rfl, bytesToBits_nil]
        have hplen : (bits ++ List.replicate (8 - bits.length) 0).length = 8 := by
          simp [List.length_append, List.length_replicate]
          omega
        have hpbits : ∀ x ∈ bits ++ List.replicate (8 - bits.length) 0, x ≤ 1 := by
          intro x hx
          rcases List.mem_append.mp hx with hx1 | hx2
          · exact hbits x hx1
          · rw [List.eq_of_mem_replicate hx2]
            omega
        have hchunk : natToBits 8
            (bitsToNat (bits ++ List.replicate (8 - bits.length) 0)) =
            bits ++ List.replicate (8 - bits.length) 0 :=
          natToBits_bitsToNat_of_length 8 _ hplen hpbits
        rw [hchunk, List.append_nil]
        have : (8 - bits.length % 8) % 8 = 8 - bits.length := by omega
        rw [this]

/-- Every packed byte is below 256. -/
theorem bitsToBytes_lt (n : Nat) :
    ∀ (bits : List Nat), bits.length ≤ n → (∀ b ∈ bits, b ≤ 1) →
      ∀ byte ∈ bitsToBytes bits, byte < 256 := by
  induction n with
  | zero =>
    intro bits hlen _ byte hbyte
    have : bits = [] := List.eq_nil_of_length_eq_zero (by omega)
    subst this
    rw [bitsToBytes] at hbyte
    simp at hbyte
  | succ n ih =>
    intro bits hlen hbits byte hbyte
    by_cases hbe : bits = []
    · subst hbe
      rw [bitsToBytes] at hbyte
      simp at hbyte
    · rw [bitsToBytes, dif_neg hbe] at hbyte
      have hpos : 0 < bits.length := List.length_pos.mpr hbe
      rcases List.mem_cons.mp hbyte with rfl | htail
      · have hplen : (bits.take 8 ++ List.replicate (8 - bits.length) 0).length = 8 := by
          simp [List.length_append, List.length_replicate, List.length_take]
          omega
        have hpbits : ∀ x ∈ bits.take 8 ++ List.replicate (8 - bits.length) 0, x ≤ 1 := by
          intro x hx
          rcases List.mem_append.mp hx with hx1 | hx2
          · exact hbits x (List.mem_of_mem_take hx1)
          · rw [List.eq_of_mem_replicate hx2]
            omega
        have := bitsToNat_lt _ hpbits
        rw [hplen] at this
        omega
      · exact ih (bits.drop 8) (by simp [List.length_drop]; omega)
          (fun x hx => hbits x (List.mem_of_mem_drop hx)) byte htail

/-! ## URL-safe base64 (the `base64.urlsafe_b64encode(...)`/`rstrip` and
pad/`urlsafe_b64decode` calls of the codec).  Encoding emits the unpadded
character stream directly; decoding accepts the lengths that Python's
re-padding accepts (`len % 4 = 1` fails) and rejects non-alphabet
characters (Python discards them, but the round-trip inputs contain
none). -/

def B64CHARS : List Char :=
  "ABCDEFGHIJKLMNOPQRSTUVWXYZabcdefghijklmnopqrstuvwxyz0123456789-_".toList

def b64Char (s : Nat) : Char := B64CHARS.getD s 'A'

def b64Index (ch : Char) : Option Nat := B64CHARS.findIdx? (fun c => c == ch)

theorem b64Index_b64Char (s : Nat) (h : s < 64) :
    b64Index (b64Char s) = some s := by
  revert h
  revert s
  decide

/-- Unpadded URL-safe base64 of a byte string. -/
def b64encodeBytes : List Nat → List Char
  | [] => []
  | [b1] => [b64Char (b1 / 4), b64Char (b1 % 4 * 16)]
  | [b1, b2] =>
      [b64Char (b1 / 4), b64Char (b1 % 4 * 16 + b2 / 16), b64Char (b2 % 16 * 4)]
  | b1 :: b2 :: b3 :: rest =>
      b64Char (b1 / 4) :: b64Char (b1 % 4 * 16 + b2 / 16) ::
        b64Char (b2 % 16 * 4 + b3 / 64) :: b64Char (b3 % 64) ::
        b64encodeBytes rest

/-- Decoding of an unpadded URL-safe base64 character stream. -/
def b64decodeChars : List Char → Option (List Nat)
  | [] => some []
  | [_] => none
  | [c1, c2] =>
      match b64Index c1, b64Index c2 with
      | some s1, some s2 => some [s1 * 4 + s2 / 16]
      | _, _ => none
  | [c1, c2, c3] =>
      match b64Index c1, b64Index c2, b64Index c3 with
      | some s1, some s2, some s3 =>
          some [s1 * 4 + s2 / 16, s2 % 16 * 16 + s3 / 4]
      | _, _, _ => none
  | c1 :: c2 :: c3 :: c4 :: rest =>
      match b64Index c1, b64Index c2, b64Index c3, b64Index c4,
          b64decodeChars rest with
      | some s1, some s2, some s3, some s4, some tail =>
          some ((s1 * 4 + s2 / 16) :: (s2 % 16 * 16 + s3 / 4) ::
            (s3 % 4 * 64 + s4) :: tail)
      | _, _, _, _, _ => none

/-- Base64 round-trip on byte strings. -/
theorem b64_roundtrip (n : Nat) :
    ∀ bytes : List Nat, bytes.length ≤ n → (∀ b ∈ bytes, b < 256) →
      b64decodeChars (b64encodeBytes bytes) = some bytes := by
  induction n with
  | zero =>
    intro bytes hlen _
    have : bytes = [] := List.eq_nil_of_length_eq_zero (by omega)
    subst this
    rfl
  | succ n ih =>
    intro bytes hlen hb
    match bytes with
    | [] => rfl
    | [b1] =>
        have h1 : b1 < 256 := hb b1 (by simp)
        rw [b64encodeBytes, b64decodeChars]
        rw [b64Index_b64Char (b1 / 4) (by omega),
          b64Index_b64Char (b1 % 4 * 16) (by omega)]
        simp only [Option.some.injEq, List.cons.injEq, and_true]
        omega
    | [b1, b2] =>
        have h1 : b1 < 256 := hb b1 (by simp)
        have h2 : b2 < 256 := hb b2 (by simp)
        rw [b64encodeBytes, b64decodeChars]
        rw [b64Index_b64Char (b1 / 4) (by omega),
          b64Index_b64Char (b1 % 4 * 16 + b2 / 16) (by omega),
          b64Index_b64Char (b2 % 16 * 4) (by omega)]
        simp only [Option.some.injEq, List.cons.injEq, and_true]
        constructor
        · omega
        · omega
    | b1 :: b2 :: b3 :: rest =>
        have h1 : b1 < 256 := hb b1 (by simp)
        have h2 : b2 < 256 := hb b2 (by simp)
        have h3 : b3 < 256 := hb b3 (by simp)
        have hrest := ih rest (by simp at hlen; omega)
          (fun x hx => hb x (by simp [hx]))
        rw [b64encodeBytes, b64decodeChars]
        rw [b64Index_b64Char (b1 / 4) (by omega),
          b64Index_b64Char (b1 % 4 * 16 + b2 / 16) (by omega),
          b64Index_b64Char (b2 % 16 * 4 + b3 / 64) (by omega),
          b64Index_b64Char (b3 % 64) (by omega), hrest]
        simp only [Option.some.injEq, List.cons.injEq]
        refine ⟨by omega, by omega, by omega, trivial⟩

/-! ### Indexing into concatenations of fixed-width blocks -/

theorem join_map_length {α : Type} (f : α → List Nat) (w : Nat) :
    ∀ (vs : List α), (∀ a ∈ vs, (f a).length = w) →
      ((vs.map f).join).length = w * vs.length := by
  intro vs
  induction vs with
  | nil => intro _; simp
  | cons v tl ih =>
    intro hw
    simp only [List.map_cons, List.join_cons, List.length_append,
      List.length_cons]
    rw [ih (fun a ha => hw a (by simp [ha])), hw v (by simp)]
    ring

theorem join_map_drop {α : Type} (f : α → List Nat) (w : Nat) :
    ∀ (vs : List α) (k : Nat) (rest : List Nat),
      (∀ a ∈ vs, (f a).length = w) → k < vs.length →
      ((vs.map f).join ++ rest).drop (w * k) =
        ((vs.drop k).map f).join ++ rest := by
  intro vs
  induction vs with
  | nil => intro k rest _ hk; simp at hk
  | cons v tl ih =>
    intro k rest hw hk
    cases k with
    | zero => simp
    | succ k2 =>
      simp only [List.map_cons, List.join_cons, List.append_assoc,
        List.drop_succ_cons]
      rw [show w * (k2 + 1) = (f v).length + w * k2 by
        rw [hw v (by simp)]; ring]
      rw [List.drop_append]
      exact ih k2 rest (fun a ha => hw a (by simp [ha])) (by simpa using hk)

theorem join_map_chunk {α : Type} (f : α → List Nat) (w : Nat)
    (vs : List α) (k : Nat) (rest : List Nat)
    (hw : ∀ a ∈ vs, (f a).length = w) (hk : k < vs.length) :
    (((vs.map f).join ++ rest).drop (w * k)).take w = f (vs.get ⟨k, hk⟩) := by
  rw [join_map_drop f w vs k rest hw hk]
  rw [List.drop_eq_getElem_cons hk]
  simp only [List.map_cons, List.join_cons, List.append_assoc]
  exact List.take_left' (hw _ (List.get_mem vs k hk))

theorem map_range_getD (l : List Nat) :
    (List.range l.length).map (fun i => l.getD i 0) = l := by
  apply List.ext_getElem
  · simp
  · intro i h1 h2
    simp only [List.getElem_map, List.getElem_range]
    rw [List.getD_eq_getElem?_getD, List.getElem?_eq_getElem h2]
    rfl

/-! ### The state codec -/

/-- The fields of the codec round-trip.  The Python decoder additionally
returns the rotated `shape` and the `color`, both derived from
`piece_name` and `rotation`; the claim compares only the fields below. -/
structure GameStateFields where
  board : List (List Nat)
  piece_name : String
  rotation : Nat
  piece_x : Int
  piece_y : Int

/-- `PIECE_NAMES.index(piece_name) if piece_name in PIECE_NAMES else 0`. -/
def pieceIndex (piece_name : String) : Nat :=
  if piece_name ∈ PIECE_NAMES then PIECE_NAMES.indexOf piece_name else 0

/-- The four bits of one cell: `min(15, max(0, cell))` big-endian. -/
def cellBits (cell : Nat) : List Nat := natToBits 4 (min 15 cell)

/-- The 40 bits of one row. -/
def rowBits (row : List Nat) : List Nat := (row.map cellBits).join

/-- The 800 board bits, row-major. -/
def boardBits (board : List (List Nat)) : List Nat :=
  (board.map rowBits).join

/-- The 815-bit payload of `encode_game_state`: board cells (4 bits
each), piece index (3), rotation (2), clamped `x + 4` (5), clamped
`y + 4` (5). -/
def stateBits (board : List (List Nat)) (piece_name : String)
    (rotation : Nat) (piece_x piece_y : Int) : List Nat :=
  boardBits board ++
    natToBits 3 (pieceIndex piece_name) ++
    natToBits 2 (rotation % 4) ++
    natToBits 5 (max 0 (min 31 (piece_x + 4))).toNat ++
    natToBits 5 (max 0 (min 31 (piece_y + 4))).toNat

/-- `encode_game_state`: pack the payload bits into bytes and emit them
as unpadded URL-safe base64. -/
def encode_game_state (board : List (List Nat)) (piece_name : String)
    (rotation : Nat) (piece_x piece_y : Int) : List Char :=
  b64encodeBytes (bitsToBytes (stateBits board piece_name rotation piece_x piece_y))

/-- `decode_game_state`: base64-decode (failing on malformed input),
check that at least 815 bits are present, then read the board cells and
the piece fields back out of the bit stream. -/
def decode_game_state (encoded : List Char) : Option GameStateFields :=
  match b64decodeChars encoded with
  | none => none
  | some byte_array =>
      let bits := bytesToBits byte_array
      if bits.length < 815 then none
      else
        some
          { board := (List.range HEIGHT).map fun r =>
              (List.range WIDTH).map fun c =>
                bitsToNat ((bits.drop (4 * (WIDTH * r + c))).take 4)
            piece_name :=
              PIECE_NAMES.getD (bitsToNat ((bits.drop 800).take 3)) "I"
            rotation := bitsToNat ((bits.drop 803).take 2)
            piece_x := (bitsToNat ((bits.drop 805).take 5) : Int) - 4
            piece_y := (bitsToNat ((bits.drop 810).take 5) : Int) - 4 }

theorem rowBits_length (board : List (List Nat))
    (hrow : ∀ row ∈ board, row.length = WIDTH) :
    ∀ row ∈ board, (rowBits row).length = 40 := by
  intro row hr
  rw [rowBits, join_map_length cellBits 4 row
    (fun cc _ => by rw [cellBits, natToBits_length]), hrow row hr]
  rfl

theorem boardBits_length (board : List (List Nat)) (hb : board.length = HEIGHT)
    (hrow : ∀ row ∈ board, row.length = WIDTH) :
    (boardBits board).length = 800 := by
  rw [boardBits, join_map_length rowBits 40 board (rowBits_length board hrow), hb]
  rfl

theorem stateBits_length (board : List (List Nat)) (piece_name : String)
    (rotation : Nat) (piece_x piece_y : Int) (hb : board.length = HEIGHT)
    (hrow : ∀ row ∈ board, row.length = WIDTH) :
    (stateBits board piece_name rotation piece_x piece_y).length = 815 := by
  simp only [stateBits, List.length_append, natToBits_length,
    boardBits_length board hb hrow]

theorem stateBits_le_one (board : List (List Nat)) (piece_name : String)
    (rotation : Nat) (piece_x piece_y : Int) :
    ∀ b ∈ stateBits board piece_name rotation piece_x piece_y, b ≤ 1 := by
  intro b hb2
  simp only [stateBits, List.mem_append] at hb2
  rcases hb2 with ((((hbb | h3) | h2) | h5x) | h5y)
  · rw [boardBits] at hbb
    obtain ⟨l, hl, hbl⟩ := List.mem_join.mp hbb
    obtain ⟨row, _, hrow⟩ := List.mem_map.mp hl
    subst hrow
    rw [rowBits] at hbl
    obtain ⟨l2, hl2, hbl2⟩ := List.mem_join.mp hbl
    obtain ⟨cell, _, hcell⟩ := List.mem_map.mp hl2
    subst hcell
    rw [cellBits] at hbl2
    exact natToBits_le_one 4 _ b hbl2
  · exact natToBits_le_one 3 _ b h3
  · exact natToBits_le_one 2 _ b h2
  · exact natToBits_le_one 5 _ b h5x
  · exact natToBits_le_one 5 _ b h5y

theorem boardBits_chunk (board : List (List Nat)) (rest : List Nat)
    (r c : Nat) (hr : r < board.length)
    (hrow : ∀ row ∈ board, row.length = WIDTH) (hc : c < board[r].length) :
    ((boardBits board ++ rest).drop (4 * (WIDTH * r + c))).take 4 =
      cellBits (board[r].get ⟨c, hc⟩) := by
  rw [show 4 * (WIDTH * r + c) = 40 * r + 4 * c by simp only [WIDTH]; ring]
  rw [← List.drop_drop]
  rw [boardBits, join_map_drop rowBits 40 board r rest
    (rowBits_length board hrow) hr]
  rw [List.drop_eq_getElem_cons hr]
  simp only [List.map_cons, List.join_cons, List.append_assoc]
  rw [rowBits]
  have := join_map_chunk cellBits 4 board[r] c
    (((board.drop (r + 1)).map rowBits).join ++ rest)
    (fun a _ => by rw [cellBits, natToBits_length]) hc
  exact this

theorem bitsToNat_cellBits (cell : Nat) (hcell : cell ≤ 8) :
    bitsToNat (cellBits cell) = cell := by
  rw [cellBits, bitsToNat_natToBits,
    Nat.min_eq_right (by omega : cell ≤ 15)]
  omega

theorem pieceIndex_getD (piece_name : String) (h : piece_name ∈ PIECE_NAMES) :
    PIECE_NAMES.getD (pieceIndex piece_name) "I" = piece_name ∧
    pieceIndex piece_name < 8 := by
  simp only [PIECE_NAMES, List.mem_cons, List.mem_singleton] at h
  rcases h with rfl | rfl | rfl | rfl | rfl | rfl | rfl | h
  · exact ⟨by decide, by decide⟩
  · exact ⟨by decide, by decide⟩
  · exact ⟨by decide, by decide⟩
  · exact ⟨by decide, by decide⟩
  · exact ⟨by decide, by decide⟩
  · exact ⟨by decide, by decide⟩
  · exact ⟨by decide, by decide⟩
  · simp at h

/-- Claim C6: for every 20×10 board with cell values in 0..8, every
piece name, rotation 0..3, and `x, y ∈ [-4, 27]`, decoding the encoded
state succeeds and returns the identical board cell-for-cell and the
identical piece name, rotation, x and y. -/
theorem c6_codec_roundtrip (board : List (List Nat)) (piece_name : String)
    (rotation : Nat) (piece_x piece_y : Int)
    (hb : board.length = HEIGHT)
    (hrow : ∀ row ∈ board, row.length = WIDTH)
    (hcell : ∀ row ∈ board, ∀ cell ∈ row, cell ≤ 8)
    (hname : piece_name ∈ PIECE_NAMES)
    (hrot : rotation ≤ 3)
    (hx1 : -4 ≤ piece_x) (hx2 : piece_x ≤ 27)
    (hy1 : -4 ≤ piece_y) (hy2 : piece_y ≤ 27) :
    decode_game_state
      (encode_game_state board piece_name rotation piece_x piece_y) =
      some ⟨board, piece_name, rotation, piece_x, piece_y⟩ := by
  have hlen := stateBits_length board piece_name rotation piece_x piece_y hb hrow
  have hle1 := stateBits_le_one board piece_name rotation piece_x piece_y
  set SB := stateBits board piece_name rotation piece_x piece_y with hSB
  have hbytes : bytesToBits (bitsToBytes SB) = SB ++ [0] := by
    rw [bytesToBits_bitsToBytes SB.length SB le_rfl hle1, hlen]
    norm_num
  have hblt : ∀ byte ∈ bitsToBytes SB, byte < 256 :=
    bitsToBytes_lt SB.length SB le_rfl hle1
  have hb64 : b64decodeChars (b64encodeBytes (bitsToBytes SB)) =
      some (bitsToBytes SB) :=
    b64_roundtrip (bitsToBytes SB).length (bitsToBytes SB) le_rfl hblt
  have hboardlen := boardBits_length board hb hrow
  have hassoc : SB ++ [0] =
      boardBits board ++
        (natToBits 3 (pieceIndex piece_name) ++
          (natToBits 2 (rotation % 4) ++
            (natToBits 5 (max 0 (min 31 (piece_x + 4))).toNat ++
              (natToBits 5 (max 0 (min 31 (piece_y + 4))).toNat ++ [0])))) := by
    rw [hSB, stateBits]
    simp [List.append_assoc]
  have h800 : (SB ++ [0]).drop 800 =
      natToBits 3 (pieceIndex piece_name) ++
        (natToBits 2 (rotation % 4) ++
          (natToBits 5 (max 0 (min 31 (piece_x + 4))).toNat ++
            (natToBits 5 (max 0 (min 31 (piece_y + 4))).toNat ++ [0]))) := by
    rw [hassoc]
    exact List.drop_left' hboardlen
  have h803 : (SB ++ [0]).drop 803 =
      natToBits 2 (rotation % 4) ++
        (natToBits 5 (max 0 (min 31 (piece_x + 4))).toNat ++
          (natToBits 5 (max 0 (min 31 (piece_y + 4))).toNat ++ [0])) := by
    rw [show (803 : Nat) = 800 + 3 by norm_num, ← List.drop_drop, h800]
    exact List.drop_left' (natToBits_length 3 _)
  have h805 : (SB ++ [0]).drop 805 =
      natToBits 5 (max 0 (min 31 (piece_x + 4))).toNat ++
        (natToBits 5 (max 0 (min 31 (piece_y + 4))).toNat ++ [0]) := by
    rw [show (805 : Nat) = 803 + 2 by norm_num, ← List.drop_drop, h803]
    exact List.drop_left' (natToBits_length 2 _)
  have h810 : (SB ++ [0]).drop 810 =
      natToBits 5 (max 0 (min 31 (piece_y + 4))).toNat ++ [0] := by
    rw [show (810 : Nat) = 805 + 5 by norm_num, ← List.drop_drop, h805]
    exact List.drop_left' (natToBits_length 5 _)
  rw [encode_game_state, ← hSB]
  simp only [decode_game_state, hb64]
  rw [hbytes]
  have hnotlt : ¬ ((SB ++ [0]).length < 815) := by
    simp only [List.length_append, List.length_cons, List.length_nil, hlen]
    omega
  rw [if_neg hnotlt]
  simp only [Option.some.injEq, GameStateFields.mk.injEq]
  refine ⟨?_, ?_, ?_, ?_, ?_⟩
  · -- the board round-trips cell for cell
    apply List.ext_getElem
    · simp [hb]
    · intro r h1 h2
      simp only [List.getElem_map, List.getElem_range]
      apply List.ext_getElem
      · simp [hrow board[r] (List.getElem_mem h2)]
      · intro c hc1 hc2
        simp only [List.getElem_map, List.getElem_range]
        rw [hassoc, boardBits_chunk board _ r c h2 hrow hc2]
        rw [show board[r].get ⟨c, hc2⟩ = board[r][c] from rfl]
        exact bitsToNat_cellBits board[r][c]
          (hcell board[r] (List.getElem_mem h2) board[r][c]
            (List.getElem_mem hc2))
  · -- the piece name round-trips
    rw [h800, List.take_left' (natToBits_length 3 _), bitsToNat_natToBits]
    obtain ⟨hg, hlt⟩ := pieceIndex_getD piece_name hname
    rw [Nat.mod_eq_of_lt (by norm_num; omega)]
    exact hg
  · -- the rotation round-trips
    rw [h803, List.take_left' (natToBits_length 2 _), bitsToNat_natToBits]
    norm_num
    omega
  · -- x round-trips
    rw [h805, List.take_left' (natToBits_length 5 _), bitsToNat_natToBits]
    have hxv : (max 0 (min 31 (piece_x + 4))).toNat = (piece_x + 4).toNat := by
      omega
    rw [hxv, Nat.mod_eq_of_lt (by norm_num; omega)]
    omega
  · -- y round-trips
    rw [h810, List.take_left' (natToBits_length 5 _), bitsToNat_natToBits]
    have hyv : (max 0 (min 31 (piece_y + 4))).toNat = (piece_y + 4).toNat := by
      omega
    rw [hyv, Nat.mod_eq_of_lt (by norm_num; omega)]
    omega

/-- Witness for `c6_codec_roundtrip`: the empty board with a T piece in
rotation 2 at `x = -1, y = 5`. -/
theorem c6_codec_roundtrip_witness :
    decode_game_state (encode_game_state new_board "T" 2 (-1) 5) =
      some ⟨new_board, "T", 2, -1, 5⟩ :=
  c6_codec_roundtrip new_board "T" 2 (-1) 5 (by decide)
    (by decide) (by decide) (by decide) (by decide) (by decide) (by decide)
    (by decide) (by decide)

end Codam99
